import Mathlib

/-!
Shallow embedding of the resonance core of the KullAILABS MCOP framework:
the `StigmergyV5` trace store, the `HolographicEtch` accumulator and the
`NovaNeoEncoder` entropy estimator, together with proofs of the behavioural
properties stated in the specification.

Numbers are modelled as real numbers.  The Node `crypto` hashing functions
(`sha256` hex digests) and the nondeterministic environment (trace ids from
`crypto.randomUUID()`, timestamps from `Date`) are not part of this
repository; they are modelled as explicit parameters: the hash function is a
field of each store structure and ids/timestamps are inputs of each call.
The documented property of the digest (a non-empty hex string) appears as an
explicit hypothesis where a claim needs it.
-/

namespace MCOP

noncomputable section
open Classical

/-- ContextTensor from the data model: an ordered sequence of numbers. -/
abbrev ContextTensor := List ℝ

/-- PheromoneTrace as built by StigmergyV5.recordTrace (part_010 lines 46-55). -/
structure PheromoneTrace where
  id : String
  hash : String
  parentHash : Option String
  context : ContextTensor
  synthesisVector : List ℝ
  weight : ℝ
  metadata : Option String
  timestamp : String
deriving Inhabited

/-- Payload hashed by StigmergyV5.merkleHash (part_010 line 43). -/
structure TracePayload where
  id : String
  context : ContextTensor
  synthesisVector : List ℝ
  metadata : Option String
  weight : ℝ

/-- ResonanceResult: a score and an optional matching trace. -/
structure ResonanceResult where
  score : ℝ
  trace : Option PheromoneTrace

/-- State of a StigmergyV5 instance: configuration (part_010 lines 14-17),
the injected hash function standing for sha256-over-JSON, and the trace list. -/
structure StigmergyV5 where
  resonanceThreshold : ℝ
  maxTraces : ℕ
  merkleHash : TracePayload → Option String → String
  traces : List PheromoneTrace

/-- A freshly constructed store: `traces` starts empty (part_010 line 12). -/
def freshStore (threshold : ℝ) (maxTraces : ℕ)
    (merkleHash : TracePayload → Option String → String) : StigmergyV5 :=
  ⟨threshold, maxTraces, merkleHash, []⟩

/-- Sum of squares of the entries of a vector. -/
def sumSq (v : List ℝ) : ℝ := (v.map fun x => x * x).sum

/-- Euclidean magnitude, as in StigmergyV5.calculateMagnitude (part_010
lines 108-114): `Math.sqrt` of the sum of squares of all entries. -/
def calculateMagnitude (v : ContextTensor) : ℝ := Real.sqrt (sumSq v)

/-- Cosine similarity from part_010 lines 19-31: dot product and both norms
are accumulated over the overlapping prefix (`i < minLen`); if either
accumulated norm is zero (JS `!normA || !normB`) the result is 0, otherwise
the dot product divided by the product of the square roots. -/
def cosine (a b : ContextTensor) : ℝ :=
  let dot := (List.zipWith (fun x y => x * y) a b).sum
  let normA := sumSq (a.take b.length)
  let normB := sumSq (b.take a.length)
  if normA = 0 ∨ normB = 0 then 0
  else dot / (Real.sqrt normA * Real.sqrt normB)

/-- The per-call environment of recordTrace: the vectors and metadata passed
by the caller, plus the id and timestamp produced by the runtime
(`crypto.randomUUID()` and `new Date()` in part_010 lines 41 and 54). -/
structure RecordInput where
  context : ContextTensor
  synthesisVector : List ℝ
  metadata : Option String
  id : String
  timestamp : String
deriving Inhabited

/-- StigmergyV5.recordTrace (part_010 lines 38-63): link `parentHash` to the
hash of the last resident trace, hash the payload, append the new trace, and
drop the oldest trace (`Array.shift`) if the store now exceeds `maxTraces`. -/
def recordTrace (s : StigmergyV5) (x : RecordInput) : StigmergyV5 × PheromoneTrace :=
  let parentHash := s.traces.getLast?.map (·.hash)
  let weight := cosine x.context x.synthesisVector
  let payload : TracePayload := ⟨x.id, x.context, x.synthesisVector, x.metadata, weight⟩
  let hash := s.merkleHash payload parentHash
  let trace : PheromoneTrace :=
    ⟨x.id, hash, parentHash, x.context, x.synthesisVector, weight, x.metadata, x.timestamp⟩
  let pushed := s.traces ++ [trace]
  ({ s with traces := if s.maxTraces < pushed.length then pushed.tail else pushed }, trace)

/-- One step of the getResonance loop (part_010 lines 67-72): replace the
running best only on a strictly greater score. -/
def resonanceStep (query : ContextTensor) (best : ResonanceResult)
    (t : PheromoneTrace) : ResonanceResult :=
  let score := cosine query t.context
  if best.score < score then ⟨score, some t⟩ else best

/-- StigmergyV5.getResonance (part_010 lines 65-79): fold the traces with a
best seeded at `{score: 0}`; return the best only when it carries a trace and
its score reaches the threshold, else `{score: 0}` with no trace. -/
def getResonance (s : StigmergyV5) (query : ContextTensor) : ResonanceResult :=
  let best := s.traces.foldl (resonanceStep query) ⟨0, none⟩
  if best.trace.isSome ∧ s.resonanceThreshold ≤ best.score then best else ⟨0, none⟩

/-- StigmergyV5.getMerkleRoot (part_010 lines 81-83). -/
def getMerkleRoot (s : StigmergyV5) : Option String :=
  s.traces.getLast?.map (·.hash)

/-- StigmergyV5.getRecent (part_010 lines 85-87): `traces.slice(-limit)`
reversed.  In JavaScript `slice(-0)` is `slice(0)`, the whole array, so a
limit of 0 yields every trace; a positive limit yields the last `limit`
traces.  Newest first after the reversal. -/
def getRecent (s : StigmergyV5) (limit : ℕ) : List PheromoneTrace :=
  if limit = 0 then s.traces.reverse
  else (s.traces.drop (s.traces.length - limit)).reverse

/-- Fold a sequence of recordTrace calls over a store, keeping the state. -/
def runTraces (s : StigmergyV5) (xs : List RecordInput) : StigmergyV5 :=
  xs.foldl (fun acc x => (recordTrace acc x).1) s

/-- EtchRecord from the data model (part_010 lines 253-258). -/
structure EtchRecord where
  hash : String
  deltaWeight : ℝ
  note : Option String
  timestamp : String
deriving Inhabited

/-- Payload hashed by HolographicEtch.applyEtch (part_010 line 251). -/
structure EtchPayload where
  context : ContextTensor
  synthesisVector : List ℝ
  normalizedDelta : ℝ
  note : Option String

/-- State of a HolographicEtch instance (part_010 lines 224-232) with the
sha256 hash injected as a function field. -/
structure HolographicEtch where
  confidenceFloor : ℝ
  auditLog : Bool
  etchHash : EtchPayload → String
  etches : List EtchRecord

/-- HolographicEtch.applyEtch (part_010 lines 234-262): dot product over the
overlapping prefix, normalized by the overlap length (divisor 1 when the
overlap is empty, JS `minLen || 1`).  Below the confidence floor with the
audit log disabled, return the sentinel record and append nothing; otherwise
hash the payload and append a full record. -/
def applyEtch (h : HolographicEtch) (context : ContextTensor)
    (synthesisVector : List ℝ) (note : Option String) (timestamp : String) :
    HolographicEtch × EtchRecord :=
  let minLen := min context.length synthesisVector.length
  let deltaWeight := (List.zipWith (fun x y => x * y) context synthesisVector).sum
  let normalizedDelta := deltaWeight / (if minLen = 0 then 1 else (minLen : ℝ))
  if normalizedDelta < h.confidenceFloor ∧ h.auditLog = false then
    (h, ⟨"", 0, some "skipped-low-confidence", timestamp⟩)
  else
    let payload : EtchPayload := ⟨context, synthesisVector, normalizedDelta, note⟩
    let record : EtchRecord := ⟨h.etchHash payload, normalizedDelta, note, timestamp⟩
    ({ h with etches := h.etches ++ [record] }, record)

/-- HolographicEtch.recent (part_010 lines 264-266): `etches.slice(-limit)`
reversed, with the same JavaScript `slice(-0)` behaviour as getRecent. -/
def recent (h : HolographicEtch) (limit : ℕ) : List EtchRecord :=
  if limit = 0 then h.etches.reverse
  else (h.etches.drop (h.etches.length - limit)).reverse

/-- The per-call inputs of one applyEtch invocation. -/
structure EtchInput where
  context : ContextTensor
  synthesisVector : List ℝ
  note : Option String
  timestamp : String

/-- Fold a sequence of applyEtch calls over an accumulator. -/
def runEtches (h : HolographicEtch) (xs : List EtchInput) : HolographicEtch :=
  xs.foldl (fun acc x => (applyEtch acc x.context x.synthesisVector x.note x.timestamp).1) h

/-- Configuration of a NovaNeoEncoder (novaNeoEncoder.ts lines 5-17). -/
structure NovaNeoEncoder where
  dimensions : ℕ
  normalize : Bool
  entropyFloor : ℝ

/-- NovaNeoEncoder.estimateEntropy (novaNeoEncoder.ts lines 67-76 and
167-188): 0 for the empty tensor; otherwise the variance of the absolute
component values, capped at 1 (`Math.min(1, variance)`) and then floored at
the configured entropyFloor (`Math.max`). -/
def estimateEntropy (e : NovaNeoEncoder) (tensor : ContextTensor) : ℝ :=
  if tensor.length = 0 then 0
  else
    let mean := (tensor.map fun v => |v|).sum / (tensor.length : ℝ)
    let variance := (tensor.map fun v => (|v| - mean) ^ 2).sum / (tensor.length : ℝ)
    max (min 1 variance) e.entropyFloor

/-! ### Basic facts about sums of squares and the cosine similarity -/

lemma sumSq_nonneg (v : List ℝ) : 0 ≤ sumSq v := by
  refine List.sum_nonneg ?_
  intro x hx
  simp only [List.mem_map] at hx
  obtain ⟨y, _, rfl⟩ := hx
  exact mul_self_nonneg y

lemma sumSq_append (a b : List ℝ) : sumSq (a ++ b) = sumSq a + sumSq b := by
  simp [sumSq]

lemma sumSq_take_eq_zero {v : List ℝ} (h : sumSq v = 0) (n : ℕ) :
    sumSq (v.take n) = 0 := by
  have hsplit := sumSq_append (v.take n) (v.drop n)
  rw [List.take_append_drop] at hsplit
  have h1 := sumSq_nonneg (v.take n)
  have h2 := sumSq_nonneg (v.drop n)
  linarith

lemma zipWith_mul_self (v : List ℝ) :
    (List.zipWith (fun x y => x * y) v v).sum = sumSq v := by
  rw [List.zipWith_same]
  rfl

lemma cosine_self {v : ContextTensor} (hv : sumSq v ≠ 0) : cosine v v = 1 := by
  have h0 : 0 ≤ sumSq v := sumSq_nonneg v
  simp only [cosine, List.take_length]
  rw [if_neg (by push_neg; exact ⟨hv, hv⟩), zipWith_mul_self,
    Real.mul_self_sqrt h0, div_self hv]

lemma calculateMagnitude_eq_zero {v : ContextTensor} :
    calculateMagnitude v = 0 ↔ sumSq v = 0 := by
  unfold calculateMagnitude
  rw [Real.sqrt_eq_zero']
  constructor
  · intro h; exact le_antisymm h (sumSq_nonneg v)
  · intro h; rw [h]

/-! ### The getResonance fold -/

lemma resonanceStep_score_mono (q : ContextTensor) (b : ResonanceResult)
    (t : PheromoneTrace) : b.score ≤ (resonanceStep q b t).score := by
  simp only [resonanceStep]
  split
  · exact le_of_lt (by assumption)
  · exact le_refl _

lemma foldl_resonance_score_mono (q : ContextTensor) (l : List PheromoneTrace)
    (b : ResonanceResult) : b.score ≤ (l.foldl (resonanceStep q) b).score := by
  induction l generalizing b with
  | nil => exact le_refl _
  | cons t ts ih => exact le_trans (resonanceStep_score_mono q b t) (ih _)

lemma foldl_resonance_of_nonpos (q : ContextTensor) (l : List PheromoneTrace)
    (h : ∀ t ∈ l, cosine q t.context ≤ 0) :
    l.foldl (resonanceStep q) ⟨0, none⟩ = ⟨0, none⟩ := by
  induction l with
  | nil => rfl
  | cons t ts ih =>
    have hstep : resonanceStep q ⟨0, none⟩ t = ⟨0, none⟩ := by
      simp only [resonanceStep]
      rw [if_neg (not_lt.mpr (h t (List.mem_cons_self t ts)))]
    rw [List.foldl_cons, hstep]
    exact ih fun u hu => h u (List.mem_cons_of_mem t hu)

lemma foldl_resonance_keeps (q : ContextTensor) (l : List PheromoneTrace)
    (b : ResonanceResult) (h : ∀ t ∈ l, cosine q t.context ≤ b.score) :
    l.foldl (resonanceStep q) b = b := by
  induction l with
  | nil => rfl
  | cons t ts ih =>
    have hstep : resonanceStep q b t = b := by
      simp only [resonanceStep]
      rw [if_neg (not_lt.mpr (h t (List.mem_cons_self t ts)))]
    rw [List.foldl_cons, hstep]
    exact ih fun u hu => h u (List.mem_cons_of_mem t hu)

lemma foldl_resonance_score_lt (q : ContextTensor) (l : List PheromoneTrace)
    (b : ResonanceResult) {c : ℝ} (hb : b.score < c)
    (h : ∀ t ∈ l, cosine q t.context < c) :
    (l.foldl (resonanceStep q) b).score < c := by
  induction l generalizing b with
  | nil => exact hb
  | cons t ts ih =>
    rw [List.foldl_cons]
    refine ih _ ?_ fun u hu => h u (List.mem_cons_of_mem t hu)
    simp only [resonanceStep]
    split
    · exact h t (List.mem_cons_self t ts)
    · exact hb

lemma foldl_resonance_argmax (q : ContextTensor) (l₁ l₂ : List PheromoneTrace)
    (t : PheromoneTrace) (h0 : 0 < cosine q t.context)
    (h₁ : ∀ u ∈ l₁, cosine q u.context < cosine q t.context)
    (h₂ : ∀ u ∈ l₂, cosine q u.context ≤ cosine q t.context) :
    (l₁ ++ t :: l₂).foldl (resonanceStep q) ⟨0, none⟩ =
      ⟨cosine q t.context, some t⟩ := by
  rw [List.foldl_append, List.foldl_cons]
  have hlt : ((l₁.foldl (resonanceStep q) ⟨0, none⟩)).score < cosine q t.context :=
    foldl_resonance_score_lt q l₁ _ h0 h₁
  have hstep : resonanceStep q (l₁.foldl (resonanceStep q) ⟨0, none⟩) t =
      ⟨cosine q t.context, some t⟩ := by
    simp only [resonanceStep]
    rw [if_pos hlt]
  rw [hstep]
  exact foldl_resonance_keeps q l₂ _ h₂

lemma foldl_resonance_cases (q : ContextTensor) (l : List PheromoneTrace)
    (b : ResonanceResult) :
    l.foldl (resonanceStep q) b = b ∨
      ∃ t ∈ l, l.foldl (resonanceStep q) b = ⟨cosine q t.context, some t⟩ := by
  induction l generalizing b with
  | nil => exact Or.inl rfl
  | cons t ts ih =>
    rw [List.foldl_cons]
    rcases ih (resonanceStep q b t) with h | ⟨u, hu, h⟩
    · rw [h]
      simp only [resonanceStep]
      split
      · exact Or.inr ⟨t, List.mem_cons_self t ts, rfl⟩
      · exact Or.inl rfl
    · exact Or.inr ⟨u, List.mem_cons_of_mem t hu, h⟩

/-! ### Concrete cosine values used by witnesses and counterexamples -/

lemma sumSq_singleton_one : sumSq [(1 : ℝ)] = 1 := by
  simp [sumSq]

lemma cosine_one_one : cosine [(1 : ℝ)] [(1 : ℝ)] = 1 :=
  cosine_self (by rw [sumSq_singleton_one]; norm_num)

lemma cosine_negone_one : cosine [(-1 : ℝ)] [(1 : ℝ)] = -1 := by
  norm_num [cosine, sumSq, Real.sqrt_one]

/-! ### Claims C9 and C10 -/

/-- Claim C9: whenever either vector has Euclidean magnitude 0, the cosine
similarity used by recordTrace and getResonance is 0 — the zero-norm guard
fires before any division, so recordTrace stores weight 0 for such a pair. -/
theorem cosine_zero_magnitude (a b : ContextTensor)
    (h : calculateMagnitude a = 0 ∨ calculateMagnitude b = 0) :
    cosine a b = 0 ∧
      ∀ (s : StigmergyV5) (md : Option String) (i ts : String),
        (recordTrace s ⟨a, b, md, i, ts⟩).2.weight = 0 := by
  have hz : sumSq (a.take b.length) = 0 ∨ sumSq (b.take a.length) = 0 := by
    rcases h with h | h
    · exact Or.inl (sumSq_take_eq_zero (calculateMagnitude_eq_zero.mp h) _)
    · exact Or.inr (sumSq_take_eq_zero (calculateMagnitude_eq_zero.mp h) _)
  have hc : cosine a b = 0 := by
    simp only [cosine]
    rw [if_pos hz]
  exact ⟨hc, fun s md i ts => hc⟩

/-- Witness for C9 at the zero vector `[0]` against `[1]`. -/
theorem cosine_zero_magnitude_witness :
    (calculateMagnitude [(0 : ℝ)] = 0 ∨ calculateMagnitude [(1 : ℝ)] = 0) ∧
      cosine [(0 : ℝ)] [(1 : ℝ)] = 0 := by
  have h : calculateMagnitude [(0 : ℝ)] = 0 ∨ calculateMagnitude [(1 : ℝ)] = 0 := by
    left
    rw [calculateMagnitude_eq_zero]
    simp [sumSq]
  exact ⟨h, (cosine_zero_magnitude _ _ h).1⟩

/-- Claim C10: the score returned by getResonance is never negative — the
best is seeded at 0 and only replaced by strictly greater scores, so when
every stored trace has negative cosine with the query the result is
`{score: 0}` with no trace. -/
theorem getResonance_score_nonneg (s : StigmergyV5) (q : ContextTensor) :
    0 ≤ (getResonance s q).score ∧
      ((∀ t ∈ s.traces, cosine q t.context < 0) →
        getResonance s q = ⟨0, none⟩) := by
  constructor
  · simp only [getResonance]
    split
    · exact foldl_resonance_score_mono q s.traces ⟨0, none⟩
    · exact le_refl _
  · intro h
    have h2 := foldl_resonance_of_nonpos q s.traces fun t ht => le_of_lt (h t ht)
    simp only [getResonance, h2]
    simp

/-- Witness for C10 on a store holding one trace whose context has cosine
-1 with the query. -/
theorem getResonance_score_nonneg_witness :
    (∀ t ∈ (runTraces (freshStore (1/2) 2048 fun _ _ => "h")
        [⟨[(1 : ℝ)], [(1 : ℝ)], none, "a", "t0"⟩]).traces,
      cosine [(-1 : ℝ)] t.context < 0) ∧
      getResonance (runTraces (freshStore (1/2) 2048 fun _ _ => "h")
        [⟨[(1 : ℝ)], [(1 : ℝ)], none, "a", "t0"⟩]) [(-1 : ℝ)] = ⟨0, none⟩ := by
  have h : ∀ t ∈ (runTraces (freshStore (1/2 : ℝ) 2048 fun _ _ => "h")
      [⟨[(1 : ℝ)], [(1 : ℝ)], none, "a", "t0"⟩]).traces,
      cosine [(-1 : ℝ)] t.context < 0 := by
    intro t ht
    simp only [runTraces, List.foldl_cons, List.foldl_nil, recordTrace,
      freshStore] at ht
    simp only [List.nil_append, List.length_cons, List.length_nil] at ht
    rw [if_neg (by norm_num)] at ht
    simp only [List.mem_singleton] at ht
    subst ht
    rw [cosine_negone_one]
    norm_num
  exact ⟨h, (getResonance_score_nonneg _ _).2 h⟩

/-! ### Hash chaining machinery -/

/-- A trace list is chained when the head's parentHash is `p` and every
later trace's parentHash is the hash of its predecessor. -/
def Chain : Option String → List PheromoneTrace → Prop
  | _, [] => True
  | p, t :: ts => t.parentHash = p ∧ Chain (some t.hash) ts

/-- The parent reference a trace appended after `l` receives, when the trace
preceding `l` (if any) contributed the reference `p`. -/
def lastHash (p : Option String) (l : List PheromoneTrace) : Option String :=
  match l.getLast? with
  | none => p
  | some t => some t.hash

lemma lastHash_none (l : List PheromoneTrace) :
    lastHash none l = l.getLast?.map (·.hash) := by
  cases h : l.getLast? <;> simp [lastHash, h]

lemma lastHash_cons (p : Option String) (t : PheromoneTrace)
    (l : List PheromoneTrace) : lastHash p (t :: l) = lastHash (some t.hash) l := by
  cases l with
  | nil => simp [lastHash]
  | cons u us =>
    simp only [lastHash, List.getLast?_cons_cons]
    cases h : (u :: us).getLast? with
    | none => simp at h
    | some w => rfl

lemma Chain.append_singleton {p : Option String} {l : List PheromoneTrace}
    (h : Chain p l) {t : PheromoneTrace} (ht : t.parentHash = lastHash p l) :
    Chain p (l ++ [t]) := by
  induction l generalizing p with
  | nil => exact ⟨ht, trivial⟩
  | cons u us ih =>
    obtain ⟨hu, hus⟩ := h
    rw [lastHash_cons] at ht
    exact ⟨hu, ih hus ht⟩

lemma Chain.parent_getD {p : Option String} {l : List PheromoneTrace}
    (h : Chain p l) (d : PheromoneTrace) :
    ∀ k, k + 1 < l.length →
      (l.getD (k + 1) d).parentHash = some ((l.getD k d).hash) := by
  induction l generalizing p with
  | nil => intro k hk; simp at hk
  | cons u us ih =>
    obtain ⟨hu, hus⟩ := h
    intro k hk
    cases k with
    | zero =>
      cases us with
      | nil => simp at hk
      | cons w ws =>
        obtain ⟨hw, _⟩ := hus
        simpa [List.getD_cons_succ, List.getD_cons_zero] using hw
    | succ k =>
      have hk2 : k + 1 < us.length := by simpa using hk
      simpa [List.getD_cons_succ] using ih hus k hk2

lemma Chain.parent_head {p : Option String} {l : List PheromoneTrace}
    (h : Chain p l) (d : PheromoneTrace) (hl : 0 < l.length) :
    (l.getD 0 d).parentHash = p := by
  cases l with
  | nil => simp at hl
  | cons u us => simpa [List.getD_cons_zero] using h.1

/-! ### Elementary facts about recordTrace and runTraces -/

lemma recordTrace_parentHash (s : StigmergyV5) (x : RecordInput) :
    (recordTrace s x).2.parentHash = s.traces.getLast?.map (·.hash) := rfl

lemma recordTrace_id (s : StigmergyV5) (x : RecordInput) :
    (recordTrace s x).2.id = x.id := rfl

lemma recordTrace_maxTraces (s : StigmergyV5) (x : RecordInput) :
    (recordTrace s x).1.maxTraces = s.maxTraces := rfl

lemma recordTrace_traces (s : StigmergyV5) (x : RecordInput) :
    (recordTrace s x).1.traces =
      if s.maxTraces < s.traces.length + 1 then
        (s.traces ++ [(recordTrace s x).2]).tail
      else s.traces ++ [(recordTrace s x).2] := by
  simp [recordTrace]

lemma recordTrace_traces_of_le {s : StigmergyV5} {x : RecordInput}
    (h : s.traces.length + 1 ≤ s.maxTraces) :
    (recordTrace s x).1.traces = s.traces ++ [(recordTrace s x).2] := by
  rw [recordTrace_traces, if_neg (by omega)]

lemma runTraces_nil (s : StigmergyV5) : runTraces s [] = s := rfl

lemma runTraces_cons (s : StigmergyV5) (x : RecordInput) (xs : List RecordInput) :
    runTraces s (x :: xs) = runTraces (recordTrace s x).1 xs := rfl

lemma runTraces_append (s : StigmergyV5) (xs ys : List RecordInput) :
    runTraces s (xs ++ ys) = runTraces (runTraces s xs) ys := by
  simp [runTraces, List.foldl_append]

lemma runTraces_maxTraces (s : StigmergyV5) (xs : List RecordInput) :
    (runTraces s xs).maxTraces = s.maxTraces := by
  induction xs generalizing s with
  | nil => rfl
  | cons x xs ih => rw [runTraces_cons, ih, recordTrace_maxTraces]

lemma runTraces_threshold (s : StigmergyV5) (xs : List RecordInput) :
    (runTraces s xs).resonanceThreshold = s.resonanceThreshold := by
  induction xs generalizing s with
  | nil => rfl
  | cons x xs ih =>
    rw [runTraces_cons, ih]
    rfl

lemma getMerkleRoot_after_record {s : StigmergyV5} {x : RecordInput}
    (h : s.traces.length + 1 ≤ s.maxTraces) :
    getMerkleRoot (recordTrace s x).1 = some (recordTrace s x).2.hash := by
  unfold getMerkleRoot
  rw [recordTrace_traces_of_le h, List.getLast?_concat]
  rfl

/-- While no eviction can occur, folding recordTrace preserves chaining and
grows the store by one trace per call. -/
lemma runTraces_chain (xs : List RecordInput) :
    ∀ s : StigmergyV5, Chain none s.traces →
      s.traces.length + xs.length ≤ s.maxTraces →
      Chain none (runTraces s xs).traces ∧
        (runTraces s xs).traces.length = s.traces.length + xs.length := by
  induction xs with
  | nil =>
    intro s hc _
    exact ⟨hc, by simp [runTraces_nil]⟩
  | cons x xs ih =>
    intro s hc hl
    simp only [List.length_cons] at hl
    have hle : s.traces.length + 1 ≤ s.maxTraces := by omega
    have htr := recordTrace_traces_of_le (s := s) (x := x) hle
    have hc1 : Chain none (recordTrace s x).1.traces := by
      rw [htr]
      exact hc.append_singleton (by rw [recordTrace_parentHash, lastHash_none])
    have hlen1 : (recordTrace s x).1.traces.length = s.traces.length + 1 := by
      rw [htr]; simp
    rw [runTraces_cons]
    have hrec := ih (recordTrace s x).1 hc1
      (by rw [hlen1, recordTrace_maxTraces]; omega)
    refine ⟨hrec.1, ?_⟩
    rw [hrec.2, hlen1, List.length_cons]
    omega

/-- Claim C1: from a fresh store, for at most maxTraces insertions every
stored trace after the first points at the hash of its predecessor, the
first stored trace has no parentHash, after every recordTrace call
getMerkleRoot equals the hash of the trace that call returned, and
getMerkleRoot is absent on the empty store. -/
theorem chain_integrity (θ : ℝ) (maxT : ℕ)
    (hf : TracePayload → Option String → String) (xs : List RecordInput)
    (hlen : xs.length ≤ maxT) :
    getMerkleRoot (freshStore θ maxT hf) = none ∧
      (runTraces (freshStore θ maxT hf) xs).traces.length = xs.length ∧
      (∀ k, k + 1 < (runTraces (freshStore θ maxT hf) xs).traces.length →
        ((runTraces (freshStore θ maxT hf) xs).traces.getD (k + 1) default).parentHash =
          some (((runTraces (freshStore θ maxT hf) xs).traces.getD k default).hash)) ∧
      (0 < (runTraces (freshStore θ maxT hf) xs).traces.length →
        ((runTraces (freshStore θ maxT hf) xs).traces.getD 0 default).parentHash = none) ∧
      ∀ n, n < xs.length →
        getMerkleRoot (runTraces (freshStore θ maxT hf) (xs.take (n + 1))) =
          some ((recordTrace (runTraces (freshStore θ maxT hf) (xs.take n))
            (xs.getD n default)).2.hash) := by
  have h0 : Chain none (freshStore θ maxT hf).traces := trivial
  have hmain := runTraces_chain xs (freshStore θ maxT hf) h0
    (by simpa [freshStore] using hlen)
  refine ⟨rfl, ?_, hmain.1.parent_getD default, hmain.1.parent_head default, ?_⟩
  · rw [hmain.2]; simp [freshStore]
  · intro n hn
    have htake : (xs.take n).length = n := by
      rw [List.length_take]; omega
    have hpre := runTraces_chain (xs.take n) (freshStore θ maxT hf) h0
      (by simp [freshStore, htake]; omega)
    have hsplit : xs.take (n + 1) = xs.take n ++ [xs.getD n default] := by
      rw [List.take_succ, List.getElem?_eq_getElem hn, Option.toList_some,
        List.getD_eq_getElem _ _ hn]
    rw [hsplit, runTraces_append]
    have hsing : runTraces (runTraces (freshStore θ maxT hf) (xs.take n))
        [xs.getD n default] =
        (recordTrace (runTraces (freshStore θ maxT hf) (xs.take n))
          (xs.getD n default)).1 := rfl
    rw [hsing]
    refine getMerkleRoot_after_record ?_
    have hn2 : (runTraces (freshStore θ maxT hf) (xs.take n)).traces.length = n := by
      rw [hpre.2]; simp [freshStore, htake]
    rw [hn2, runTraces_maxTraces]
    show n + 1 ≤ maxT
    omega

/-- Witness for C1: two insertions into a fresh store with maxTraces 2048. -/
theorem chain_integrity_witness :
    ([⟨[(1 : ℝ)], [1], none, "a", "t0"⟩,
      (⟨[(1 : ℝ)], [1], none, "b", "t1"⟩ : RecordInput)].length ≤ 2048) ∧
      (runTraces (freshStore (1/2) 2048 fun _ _ => "h")
        [⟨[(1 : ℝ)], [1], none, "a", "t0"⟩,
         ⟨[(1 : ℝ)], [1], none, "b", "t1"⟩]).traces.length = 2 := by
  have h : ([⟨[(1 : ℝ)], [1], none, "a", "t0"⟩,
      (⟨[(1 : ℝ)], [1], none, "b", "t1"⟩ : RecordInput)] : List RecordInput).length ≤ 2048 := by
    norm_num
  exact ⟨h, (chain_integrity (1/2) 2048 (fun _ _ => "h") _ h).2.1⟩

/-! ### Store size and FIFO eviction -/

lemma recordTrace_length {s : StigmergyV5} (x : RecordInput)
    (h : s.traces.length ≤ s.maxTraces) :
    (recordTrace s x).1.traces.length = min (s.traces.length + 1) s.maxTraces := by
  rw [recordTrace_traces]
  split
  · rename_i hlt
    rw [List.length_tail]
    simp only [List.length_append, List.length_singleton]
    omega
  · rename_i hge
    simp only [List.length_append, List.length_singleton]
    omega

lemma runTraces_length (xs : List RecordInput) :
    ∀ s : StigmergyV5, s.traces.length ≤ s.maxTraces →
      (runTraces s xs).traces.length = min (s.traces.length + xs.length) s.maxTraces := by
  induction xs with
  | nil =>
    intro s h
    simp only [runTraces_nil, List.length_nil]
    omega
  | cons x xs ih =>
    intro s h
    rw [runTraces_cons]
    have h1 := recordTrace_length x h
    have h2 : (recordTrace s x).1.traces.length ≤ (recordTrace s x).1.maxTraces := by
      rw [h1, recordTrace_maxTraces]; omega
    rw [ih _ h2, h1, recordTrace_maxTraces, List.length_cons]
    omega

lemma isSuffix_append_right {α : Type _} {l₁ l₂ : List α} (h : l₁ <:+ l₂)
    (l₃ : List α) : l₁ ++ l₃ <:+ l₂ ++ l₃ := by
  obtain ⟨u, rfl⟩ := h
  exact ⟨u, by rw [List.append_assoc]⟩

/-- The ids resident in the store are always a suffix of the starting ids
followed by the inserted ids: `shift` only ever removes from the front. -/
lemma runTraces_ids_suffix (xs : List RecordInput) :
    ∀ s : StigmergyV5,
      (runTraces s xs).traces.map (·.id) <:+
        (s.traces.map (·.id) ++ xs.map (·.id)) := by
  induction xs with
  | nil =>
    intro s
    simp only [runTraces_nil, List.map_nil, List.append_nil]
    exact List.suffix_refl _
  | cons x xs ih =>
    intro s
    rw [runTraces_cons]
    have hstep : (recordTrace s x).1.traces.map (·.id) <:+
        (s.traces.map (·.id) ++ [x.id]) := by
      rw [recordTrace_traces]
      split
      · rw [List.map_tail, List.map_append]
        exact List.tail_suffix _
      · rw [List.map_append]
        exact List.suffix_refl _
    have h1 := ih (recordTrace s x).1
    have h2 := isSuffix_append_right hstep (xs.map (·.id))
    have h3 : (s.traces.map (·.id) ++ [x.id]) ++ xs.map (·.id) =
        s.traces.map (·.id) ++ (x :: xs).map (·.id) := by
      rw [List.append_assoc]
      rfl
    rw [h3] at h2
    exact h1.trans h2

lemma suffix_of_cons_length {α : Type _} {S : List α} {a : α} {b : List α}
    (h : S <:+ a :: b) (hl : S.length ≤ b.length) : S <:+ b := by
  obtain ⟨u, hu⟩ := h
  cases u with
  | nil =>
    simp only [List.nil_append] at hu
    subst hu
    simp at hl
  | cons c cs =>
    rw [List.cons_append] at hu
    injection hu with h1 h2
    exact ⟨cs, h2⟩

/-- Claim C2: the store never holds more than maxTraces traces; inserting
maxTraces + 1 traces from a fresh store leaves exactly maxTraces traces and
the first-inserted trace (identified by its unique id) is absent from
getRecent (maxTraces + 1). -/
theorem eviction_fifo (θ : ℝ) (maxT : ℕ)
    (hf : TracePayload → Option String → String) (x0 : RecordInput)
    (xs : List RecordInput) (hlen : xs.length = maxT)
    (hid : x0.id ∉ xs.map (·.id)) :
    (∀ ys : List RecordInput,
      (runTraces (freshStore θ maxT hf) ys).traces.length ≤ maxT) ∧
      (runTraces (freshStore θ maxT hf) (x0 :: xs)).traces.length = maxT ∧
      ∀ t ∈ getRecent (runTraces (freshStore θ maxT hf) (x0 :: xs)) (maxT + 1),
        t.id ≠ x0.id := by
  have hfreshlen : (freshStore θ maxT hf).traces.length ≤ (freshStore θ maxT hf).maxTraces := by
    simp [freshStore]
  have hbound : ∀ ys : List RecordInput,
      (runTraces (freshStore θ maxT hf) ys).traces.length ≤ maxT := by
    intro ys
    have := runTraces_length ys (freshStore θ maxT hf) hfreshlen
    rw [this]
    show min ((freshStore θ maxT hf).traces.length + ys.length) maxT ≤ maxT
    omega
  have hsize : (runTraces (freshStore θ maxT hf) (x0 :: xs)).traces.length = maxT := by
    rw [runTraces_length (x0 :: xs) (freshStore θ maxT hf) hfreshlen]
    show min ((freshStore θ maxT hf).traces.length + (x0 :: xs).length) maxT = maxT
    simp only [freshStore, List.length_nil, List.length_cons, hlen]
    omega
  refine ⟨hbound, hsize, ?_⟩
  intro t ht
  have hsuf := runTraces_ids_suffix (x0 :: xs) (freshStore θ maxT hf)
  simp only [freshStore, List.map_nil, List.nil_append, List.map_cons] at hsuf
  have hlength : ((runTraces (freshStore θ maxT hf) (x0 :: xs)).traces.map (·.id)).length ≤
      (xs.map (·.id)).length := by
    rw [List.length_map, List.length_map, hsize, hlen]
  have hsuf2 := suffix_of_cons_length hsuf hlength
  have hmem : t ∈ (runTraces (freshStore θ maxT hf) (x0 :: xs)).traces := by
    have h0 : maxT + 1 ≠ 0 := by omega
    simp only [getRecent, if_neg h0, List.mem_reverse] at ht
    exact List.drop_subset _ _ ht
  have hidmem : t.id ∈ xs.map (·.id) :=
    hsuf2.subset (List.mem_map_of_mem (·.id) hmem)
  intro hcontra
  rw [hcontra] at hidmem
  exact hid hidmem

/-- Witness for C2: a fresh store with maxTraces 1 receiving two traces with
distinct ids keeps one trace, namely the second. -/
theorem eviction_fifo_witness :
    (([(⟨[(1 : ℝ)], [1], none, "b", "t1"⟩ : RecordInput)] : List RecordInput).length = 1 ∧
      ("a" : String) ∉ ([(⟨[(1 : ℝ)], [1], none, "b", "t1"⟩ : RecordInput)] :
        List RecordInput).map (·.id)) ∧
      ∀ t ∈ getRecent (runTraces (freshStore (1/2) 1 fun _ _ => "h")
        [⟨[(1 : ℝ)], [1], none, "a", "t0"⟩, ⟨[(1 : ℝ)], [1], none, "b", "t1"⟩]) 2,
        t.id ≠ "a" := by
  have h1 : ([(⟨[(1 : ℝ)], [1], none, "b", "t1"⟩ : RecordInput)] : List RecordInput).length = 1 := by
    norm_num
  have h2 : ("a" : String) ∉ ([(⟨[(1 : ℝ)], [1], none, "b", "t1"⟩ : RecordInput)] :
      List RecordInput).map (·.id) := by
    simp
  exact ⟨⟨h1, h2⟩,
    (eviction_fifo (1/2) 1 (fun _ _ => "h") ⟨[(1 : ℝ)], [1], none, "a", "t0"⟩ _ h1 h2).2.2⟩

/-! ### getResonance result characterization -/

lemma recordTrace_threshold (s : StigmergyV5) (x : RecordInput) :
    (recordTrace s x).1.resonanceThreshold = s.resonanceThreshold := rfl

lemma recordTrace_context (s : StigmergyV5) (x : RecordInput) :
    (recordTrace s x).2.context = x.context := rfl

/-- Claim C3, counterexample to the unrestricted reading: with threshold -2
and a single stored trace whose cosine with the query is -1, the best stored
score (-1) reaches the threshold, yet getResonance returns score 0 with no
trace — the seed 0 of the strict-greater fold never lets a non-positive best
score carry a trace. -/
theorem getResonance_claim_counterexample :
    cosine [(-1 : ℝ)]
        ((recordTrace (freshStore (-2) 2048 fun _ _ => "h")
          ⟨[(1 : ℝ)], [1], none, "a", "t0"⟩).2.context) = -1 ∧
      (recordTrace (freshStore (-2) 2048 fun _ _ => "h")
          ⟨[(1 : ℝ)], [1], none, "a", "t0"⟩).1.traces =
        [(recordTrace (freshStore (-2) 2048 fun _ _ => "h")
          ⟨[(1 : ℝ)], [1], none, "a", "t0"⟩).2] ∧
      (recordTrace (freshStore (-2) 2048 fun _ _ => "h")
          ⟨[(1 : ℝ)], [1], none, "a", "t0"⟩).1.resonanceThreshold ≤ -1 ∧
      getResonance (recordTrace (freshStore (-2) 2048 fun _ _ => "h")
          ⟨[(1 : ℝ)], [1], none, "a", "t0"⟩).1 [(-1 : ℝ)] = ⟨0, none⟩ := by
  have hctx : (recordTrace (freshStore (-2 : ℝ) 2048 fun _ _ => "h")
      ⟨[(1 : ℝ)], [1], none, "a", "t0"⟩).2.context = [(1 : ℝ)] := rfl
  have hcos : cosine [(-1 : ℝ)]
      ((recordTrace (freshStore (-2 : ℝ) 2048 fun _ _ => "h")
        ⟨[(1 : ℝ)], [1], none, "a", "t0"⟩).2.context) = -1 := by
    rw [hctx, cosine_negone_one]
  have htr : (recordTrace (freshStore (-2 : ℝ) 2048 fun _ _ => "h")
      ⟨[(1 : ℝ)], [1], none, "a", "t0"⟩).1.traces =
      [(recordTrace (freshStore (-2 : ℝ) 2048 fun _ _ => "h")
        ⟨[(1 : ℝ)], [1], none, "a", "t0"⟩).2] := by
    rw [recordTrace_traces_of_le (by simp [freshStore])]
    simp [freshStore]
  refine ⟨hcos, htr, ?_, ?_⟩
  · rw [recordTrace_threshold]
    show (-2 : ℝ) ≤ -1
    norm_num
  have hnp : ∀ t ∈ (recordTrace (freshStore (-2 : ℝ) 2048 fun _ _ => "h")
      ⟨[(1 : ℝ)], [1], none, "a", "t0"⟩).1.traces,
      cosine [(-1 : ℝ)] t.context ≤ 0 := by
    intro t ht
    rw [htr, List.mem_singleton] at ht
    subst ht
    rw [hcos]
    norm_num
  have h2 := foldl_resonance_of_nonpos [(-1 : ℝ)] _ hnp
  simp only [getResonance, h2]
  simp

/-- Claim C3 (amended): getResonance returns the first trace attaining the
maximal cosine score, with that score, when the maximum is positive and
reaches the threshold; in every other case — including a non-positive best
score that still reaches a non-positive threshold — it returns score 0 with
no trace. -/
theorem getResonance_spec (s : StigmergyV5) (q : ContextTensor) :
    (∀ (l₁ l₂ : List PheromoneTrace) (t : PheromoneTrace),
      s.traces = l₁ ++ t :: l₂ →
      0 < cosine q t.context →
      s.resonanceThreshold ≤ cosine q t.context →
      (∀ u ∈ l₁, cosine q u.context < cosine q t.context) →
      (∀ u ∈ l₂, cosine q u.context ≤ cosine q t.context) →
      getResonance s q = ⟨cosine q t.context, some t⟩) ∧
      (((∀ u ∈ s.traces, cosine q u.context ≤ 0) ∨
        (∀ u ∈ s.traces, cosine q u.context < s.resonanceThreshold)) →
        getResonance s q = ⟨0, none⟩) := by
  constructor
  · intro l₁ l₂ t hsplit h0 hθ h₁ h₂
    have hfold := foldl_resonance_argmax q l₁ l₂ t h0 h₁ h₂
    simp only [getResonance, hsplit, hfold]
    rw [if_pos ⟨rfl, hθ⟩]
  · intro h
    rcases h with h | h
    · have h2 := foldl_resonance_of_nonpos q s.traces h
      simp only [getResonance, h2]
      simp
    · rcases foldl_resonance_cases q s.traces ⟨0, none⟩ with hc | ⟨t, ht, hc⟩
      · simp only [getResonance, hc]
        simp
      · have hlt := h t ht
        simp only [getResonance, hc]
        rw [if_neg fun hcon => absurd hcon.2 (not_le.mpr hlt)]

/-- Witness for C3 on a store holding one trace with cosine 1 against the
query and threshold 1/2. -/
theorem getResonance_spec_witness :
    ((recordTrace (freshStore (1/2) 2048 fun _ _ => "h")
        ⟨[(1 : ℝ)], [1], none, "a", "t0"⟩).1.traces =
      [] ++ (recordTrace (freshStore (1/2) 2048 fun _ _ => "h")
        ⟨[(1 : ℝ)], [1], none, "a", "t0"⟩).2 :: []) ∧
      (0 < cosine [(1 : ℝ)] ((recordTrace (freshStore (1/2) 2048 fun _ _ => "h")
        ⟨[(1 : ℝ)], [1], none, "a", "t0"⟩).2.context)) ∧
      getResonance (recordTrace (freshStore (1/2) 2048 fun _ _ => "h")
          ⟨[(1 : ℝ)], [1], none, "a", "t0"⟩).1 [(1 : ℝ)] =
        ⟨cosine [(1 : ℝ)] ((recordTrace (freshStore (1/2) 2048 fun _ _ => "h")
          ⟨[(1 : ℝ)], [1], none, "a", "t0"⟩).2.context),
         some (recordTrace (freshStore (1/2) 2048 fun _ _ => "h")
          ⟨[(1 : ℝ)], [1], none, "a", "t0"⟩).2⟩ := by
  have hcos : cosine [(1 : ℝ)] ((recordTrace (freshStore (1/2 : ℝ) 2048 fun _ _ => "h")
      ⟨[(1 : ℝ)], [1], none, "a", "t0"⟩).2.context) = 1 := by
    rw [recordTrace_context]
    exact cosine_one_one
  have hsplit : (recordTrace (freshStore (1/2 : ℝ) 2048 fun _ _ => "h")
      ⟨[(1 : ℝ)], [1], none, "a", "t0"⟩).1.traces =
      [] ++ (recordTrace (freshStore (1/2 : ℝ) 2048 fun _ _ => "h")
        ⟨[(1 : ℝ)], [1], none, "a", "t0"⟩).2 :: [] := by
    rw [recordTrace_traces_of_le (by simp [freshStore])]
    simp [freshStore]
  have h0 : 0 < cosine [(1 : ℝ)] ((recordTrace (freshStore (1/2 : ℝ) 2048 fun _ _ => "h")
      ⟨[(1 : ℝ)], [1], none, "a", "t0"⟩).2.context) := by
    rw [hcos]; norm_num
  refine ⟨hsplit, h0, ?_⟩
  refine (getResonance_spec _ _).1 [] [] _ hsplit h0 ?_ ?_ ?_
  · rw [recordTrace_threshold, hcos]
    show (1/2 : ℝ) ≤ 1
    norm_num
  · intro u hu
    simp at hu
  · intro u hu
    simp at hu

/-! ### Self-resonance -/

/-- Claim C4, counterexample to the unrestricted reading: recording the
context [1] twice (ids "a" then "b") and querying [1] returns the FIRST
trace ("a"), because the second trace only ties the score 1 and the strict
greater-than comparison keeps the earlier trace — the returned id differs
from the id of the trace just recorded. -/
theorem self_resonance_claim_counterexample :
    sumSq [(1 : ℝ)] ≠ 0 ∧
      (recordTrace (runTraces (freshStore (1/2) 2048 fun _ _ => "h")
          [⟨[(1 : ℝ)], [1], none, "a", "t0"⟩])
        ⟨[(1 : ℝ)], [1], none, "b", "t1"⟩).2.id = "b" ∧
      (getResonance (recordTrace (runTraces (freshStore (1/2) 2048 fun _ _ => "h")
          [⟨[(1 : ℝ)], [1], none, "a", "t0"⟩])
        ⟨[(1 : ℝ)], [1], none, "b", "t1"⟩).1 [(1 : ℝ)]).trace.map (·.id) =
        some "a" := by
  refine ⟨by rw [sumSq_singleton_one]; norm_num, rfl, ?_⟩
  have htrA : (runTraces (freshStore (1/2 : ℝ) 2048 fun _ _ => "h")
      [⟨[(1 : ℝ)], [1], none, "a", "t0"⟩]).traces =
      [(recordTrace (freshStore (1/2 : ℝ) 2048 fun _ _ => "h")
        ⟨[(1 : ℝ)], [1], none, "a", "t0"⟩).2] := by
    show (recordTrace (freshStore (1/2 : ℝ) 2048 fun _ _ => "h")
      ⟨[(1 : ℝ)], [1], none, "a", "t0"⟩).1.traces = _
    rw [recordTrace_traces_of_le (by simp [freshStore])]
    simp [freshStore]
  have htr2 : (recordTrace (runTraces (freshStore (1/2 : ℝ) 2048 fun _ _ => "h")
      [⟨[(1 : ℝ)], [1], none, "a", "t0"⟩])
      ⟨[(1 : ℝ)], [1], none, "b", "t1"⟩).1.traces =
      [(recordTrace (freshStore (1/2 : ℝ) 2048 fun _ _ => "h")
        ⟨[(1 : ℝ)], [1], none, "a", "t0"⟩).2] ++
      (recordTrace (runTraces (freshStore (1/2 : ℝ) 2048 fun _ _ => "h")
          [⟨[(1 : ℝ)], [1], none, "a", "t0"⟩])
        ⟨[(1 : ℝ)], [1], none, "b", "t1"⟩).2 :: [] := by
    rw [recordTrace_traces_of_le (by rw [htrA, runTraces_maxTraces]; norm_num [freshStore])]
    rw [htrA]
  have hcosA : cosine [(1 : ℝ)]
      ((recordTrace (freshStore (1/2 : ℝ) 2048 fun _ _ => "h")
        ⟨[(1 : ℝ)], [1], none, "a", "t0"⟩).2.context) = 1 := by
    rw [recordTrace_context]
    exact cosine_one_one
  have hcosB : cosine [(1 : ℝ)]
      ((recordTrace (runTraces (freshStore (1/2 : ℝ) 2048 fun _ _ => "h")
          [⟨[(1 : ℝ)], [1], none, "a", "t0"⟩])
        ⟨[(1 : ℝ)], [1], none, "b", "t1"⟩).2.context) = 1 := by
    rw [recordTrace_context]
    exact cosine_one_one
  have hfold := foldl_resonance_argmax [(1 : ℝ)] []
    [(recordTrace (runTraces (freshStore (1/2 : ℝ) 2048 fun _ _ => "h")
        [⟨[(1 : ℝ)], [1], none, "a", "t0"⟩])
      ⟨[(1 : ℝ)], [1], none, "b", "t1"⟩).2]
    (recordTrace (freshStore (1/2 : ℝ) 2048 fun _ _ => "h")
      ⟨[(1 : ℝ)], [1], none, "a", "t0"⟩).2
    (by rw [hcosA]; norm_num)
    (fun u hu => absurd hu (List.not_mem_nil u))
    (by
      intro u hu
      rw [List.mem_singleton] at hu
      subst hu
      rw [hcosA, hcosB])
  have hform : ([] : List PheromoneTrace) ++
      (recordTrace (freshStore (1/2 : ℝ) 2048 fun _ _ => "h")
        ⟨[(1 : ℝ)], [1], none, "a", "t0"⟩).2 ::
      [(recordTrace (runTraces (freshStore (1/2 : ℝ) 2048 fun _ _ => "h")
          [⟨[(1 : ℝ)], [1], none, "a", "t0"⟩])
        ⟨[(1 : ℝ)], [1], none, "b", "t1"⟩).2] =
      [(recordTrace (freshStore (1/2 : ℝ) 2048 fun _ _ => "h")
        ⟨[(1 : ℝ)], [1], none, "a", "t0"⟩).2] ++
      (recordTrace (runTraces (freshStore (1/2 : ℝ) 2048 fun _ _ => "h")
          [⟨[(1 : ℝ)], [1], none, "a", "t0"⟩])
        ⟨[(1 : ℝ)], [1], none, "b", "t1"⟩).2 :: [] := by
    simp
  rw [hform] at hfold
  have hcond : (recordTrace (runTraces (freshStore (1/2 : ℝ) 2048 fun _ _ => "h")
      [⟨[(1 : ℝ)], [1], none, "a", "t0"⟩])
      ⟨[(1 : ℝ)], [1], none, "b", "t1"⟩).1.resonanceThreshold ≤
      cosine [(1 : ℝ)] ((recordTrace (freshStore (1/2 : ℝ) 2048 fun _ _ => "h")
        ⟨[(1 : ℝ)], [1], none, "a", "t0"⟩).2.context) := by
    rw [recordTrace_threshold, runTraces_threshold, hcosA]
    show (1/2 : ℝ) ≤ 1
    norm_num
  simp only [getResonance, htr2, hfold]
  rw [if_pos ⟨rfl, hcond⟩]
  rfl

/-- Claim C4 (amended): for nonzero v, provided the threshold is at most 1,
the store can retain a trace (maxTraces ≥ 1), and no already-stored trace
attains cosine 1 with v, recordTrace(v, v, meta) followed by getResonance(v)
returns a score reaching the threshold and the trace just recorded. -/
theorem self_resonance (s : StigmergyV5) (v : ContextTensor) (md : Option String)
    (i ts : String) (hv : sumSq v ≠ 0) (hθ : s.resonanceThreshold ≤ 1)
    (hmax : 1 ≤ s.maxTraces)
    (hprev : ∀ u ∈ s.traces, cosine v u.context < 1) :
    s.resonanceThreshold ≤
        (getResonance (recordTrace s ⟨v, v, md, i, ts⟩).1 v).score ∧
      (getResonance (recordTrace s ⟨v, v, md, i, ts⟩).1 v).trace =
        some (recordTrace s ⟨v, v, md, i, ts⟩).2 := by
  have hcos : cosine v (recordTrace s ⟨v, v, md, i, ts⟩).2.context = 1 := by
    rw [recordTrace_context]
    exact cosine_self hv
  obtain ⟨l₁, hl₁sub, hl₁⟩ :
      ∃ l₁, (∀ u ∈ l₁, u ∈ s.traces) ∧
        (recordTrace s ⟨v, v, md, i, ts⟩).1.traces =
          l₁ ++ (recordTrace s ⟨v, v, md, i, ts⟩).2 :: [] := by
    rw [recordTrace_traces]
    split
    · rename_i hevict
      cases hs : s.traces with
      | nil =>
        exfalso
        rw [hs] at hevict
        simp only [List.length_nil] at hevict
        omega
      | cons u us =>
        exact ⟨us, fun w hw => List.mem_cons_of_mem u hw, rfl⟩
    · exact ⟨s.traces, fun w hw => hw, by simp⟩
  have hfold := foldl_resonance_argmax v l₁ [] (recordTrace s ⟨v, v, md, i, ts⟩).2
    (by rw [hcos]; norm_num)
    (fun u hu => by rw [hcos]; exact hprev u (hl₁sub u hu))
    (fun u hu => absurd hu (List.not_mem_nil u))
  have hres : getResonance (recordTrace s ⟨v, v, md, i, ts⟩).1 v =
      ⟨cosine v (recordTrace s ⟨v, v, md, i, ts⟩).2.context,
       some (recordTrace s ⟨v, v, md, i, ts⟩).2⟩ := by
    simp only [getResonance, hl₁, hfold]
    rw [if_pos ⟨rfl, by rw [recordTrace_threshold, hcos]; exact hθ⟩]
  rw [hres, hcos]
  exact ⟨hθ, rfl⟩

/-- Witness for C4: nonzero vector [1] recorded into a fresh store with the
default configuration. -/
theorem self_resonance_witness :
    (sumSq [(1 : ℝ)] ≠ 0 ∧
      (freshStore (1/2) 2048 fun _ _ => "h").resonanceThreshold ≤ 1 ∧
      1 ≤ (freshStore (1/2 : ℝ) 2048 fun _ _ => "h").maxTraces ∧
      ∀ u ∈ (freshStore (1/2 : ℝ) 2048 fun _ _ => "h").traces,
        cosine [(1 : ℝ)] u.context < 1) ∧
      (getResonance (recordTrace (freshStore (1/2) 2048 fun _ _ => "h")
          ⟨[(1 : ℝ)], [(1 : ℝ)], none, "a", "t0"⟩).1 [(1 : ℝ)]).trace =
        some (recordTrace (freshStore (1/2) 2048 fun _ _ => "h")
          ⟨[(1 : ℝ)], [(1 : ℝ)], none, "a", "t0"⟩).2 := by
  have h1 : sumSq [(1 : ℝ)] ≠ 0 := by rw [sumSq_singleton_one]; norm_num
  have h2 : (freshStore (1/2 : ℝ) 2048 fun _ _ => "h").resonanceThreshold ≤ 1 := by
    show (1/2 : ℝ) ≤ 1
    norm_num
  have h3 : 1 ≤ (freshStore (1/2 : ℝ) 2048 fun _ _ => "h").maxTraces := by
    show 1 ≤ 2048
    norm_num
  have h4 : ∀ u ∈ (freshStore (1/2 : ℝ) 2048 fun _ _ => "h").traces,
      cosine [(1 : ℝ)] u.context < 1 := by
    intro u hu
    simp [freshStore] at hu
  exact ⟨⟨h1, h2, h3, h4⟩,
    (self_resonance (freshStore (1/2) 2048 fun _ _ => "h") [(1 : ℝ)] none "a" "t0"
      h1 h2 h3 h4).2⟩

/-! ### getRecent -/

/-- Claim C8, counterexample to the limit-0 case: after one insertion,
getRecent 0 returns that trace (JavaScript `slice(-0)` is `slice(0)`, the
whole array), not the empty list the claim's min(limit, size) formula
demands. -/
theorem getRecent_claim_counterexample :
    (getRecent (recordTrace (freshStore (1/2) 2048 fun _ _ => "h")
        ⟨[(1 : ℝ)], [1], none, "a", "t0"⟩).1 0).length = 1 ∧
      min 0 ((recordTrace (freshStore (1/2) 2048 fun _ _ => "h")
        ⟨[(1 : ℝ)], [1], none, "a", "t0"⟩).1.traces.length) = 0 := by
  have htr : (recordTrace (freshStore (1/2 : ℝ) 2048 fun _ _ => "h")
      ⟨[(1 : ℝ)], [1], none, "a", "t0"⟩).1.traces =
      [(recordTrace (freshStore (1/2 : ℝ) 2048 fun _ _ => "h")
        ⟨[(1 : ℝ)], [1], none, "a", "t0"⟩).2] := by
    rw [recordTrace_traces_of_le (by simp [freshStore])]
    simp [freshStore]
  constructor
  · unfold getRecent
    rw [if_pos rfl, List.length_reverse, htr, List.length_singleton]
  · simp

/-- Claim C8 (amended): for every limit ≥ 1, getRecent returns the
min(limit, size) most recently appended traces newest first (the first
`limit` entries of the reversed trace list); getRecent 0 returns every
stored trace, newest first. -/
theorem getRecent_spec (s : StigmergyV5) (limit : ℕ) :
    (1 ≤ limit → getRecent s limit = s.traces.reverse.take limit ∧
      (getRecent s limit).length = min limit s.traces.length) ∧
      getRecent s 0 = s.traces.reverse := by
  constructor
  · intro hl
    have h0 : limit ≠ 0 := by omega
    have heq : getRecent s limit = s.traces.reverse.take limit := by
      rw [getRecent, if_neg h0, List.take_reverse]
    refine ⟨heq, ?_⟩
    rw [heq, List.length_take, List.length_reverse]
  · rw [getRecent, if_pos rfl]

/-- Witness for C8 with limit 1 on a single-trace store. -/
theorem getRecent_spec_witness :
    1 ≤ 1 ∧
      getRecent (recordTrace (freshStore (1/2) 2048 fun _ _ => "h")
          ⟨[(1 : ℝ)], [1], none, "a", "t0"⟩).1 1 =
        ((recordTrace (freshStore (1/2) 2048 fun _ _ => "h")
          ⟨[(1 : ℝ)], [1], none, "a", "t0"⟩).1.traces).reverse.take 1 :=
  ⟨by norm_num, ((getRecent_spec _ 1).1 (by norm_num)).1⟩

/-! ### HolographicEtch -/

lemma applyEtch_hashFn (h : HolographicEtch) (c : ContextTensor) (sv : List ℝ)
    (note : Option String) (ts : String) :
    (applyEtch h c sv note ts).1.etchHash = h.etchHash := by
  simp only [applyEtch]
  split <;> split <;> rfl

lemma applyEtch_etches_mem (h : HolographicEtch) (c : ContextTensor)
    (sv : List ℝ) (note : Option String) (ts : String) :
    ∀ r ∈ (applyEtch h c sv note ts).1.etches,
      r ∈ h.etches ∨ ∃ p, r.hash = h.etchHash p := by
  simp only [applyEtch]
  split <;> split
  all_goals
    first
      | exact fun r hr => Or.inl hr
      | (intro r hr
         rw [List.mem_append] at hr
         rcases hr with hr | hr
         · exact Or.inl hr
         · rw [List.mem_singleton] at hr
           subst hr
           exact Or.inr ⟨_, rfl⟩)

lemma runEtches_nil (h : HolographicEtch) : runEtches h [] = h := rfl

lemma runEtches_cons (h : HolographicEtch) (x : EtchInput) (xs : List EtchInput) :
    runEtches h (x :: xs) =
      runEtches (applyEtch h x.context x.synthesisVector x.note x.timestamp).1 xs := rfl

/-- If the hash function never returns "" and every resident record has a
non-empty hash, that stays true after any sequence of applyEtch calls. -/
lemma runEtches_hash_nonempty (xs : List EtchInput) :
    ∀ h : HolographicEtch, (∀ p, h.etchHash p ≠ "") →
      (∀ r ∈ h.etches, r.hash ≠ "") →
      ∀ r ∈ (runEtches h xs).etches, r.hash ≠ "" := by
  induction xs with
  | nil => intro h _ he; exact he
  | cons x xs ih =>
    intro h hf he
    rw [runEtches_cons]
    refine ih _ ?_ ?_
    · rw [applyEtch_hashFn]
      exact hf
    · intro r hr
      rcases applyEtch_etches_mem h x.context x.synthesisVector x.note
        x.timestamp r hr with hm | ⟨p, hp⟩
      · exact he r hm
      · rw [hp]
        exact hf p

lemma recent_subset (h : HolographicEtch) (limit : ℕ) :
    ∀ r ∈ recent h limit, r ∈ h.etches := by
  intro r hr
  unfold recent at hr
  split at hr
  · rw [List.mem_reverse] at hr
    exact hr
  · rw [List.mem_reverse] at hr
    exact List.drop_subset _ _ hr

/-- Claim C5: applyEtch computes deltaWeight as the dot product over the
overlapping prefix divided by the overlap length (divisor 1 on an empty
overlap); whenever the skip branch is not taken the returned record carries
exactly that value and is appended; on [1, 0.5, -0.5, 0.2] against
[0.5, 0.5, 0.5, 0.5] with the audit log enabled this yields 0.15
(dot 0.6 over length 4) and an appended record with a non-empty hash. -/
theorem applyEtch_delta (h : HolographicEtch) (context : ContextTensor)
    (synthesisVector : List ℝ) (note : Option String) (ts : String) :
    (¬((List.zipWith (fun x y => x * y) context synthesisVector).sum /
          (if min context.length synthesisVector.length = 0 then 1
            else ((min context.length synthesisVector.length : ℕ) : ℝ)) <
          h.confidenceFloor ∧ h.auditLog = false) →
      (applyEtch h context synthesisVector note ts).2.deltaWeight =
          (List.zipWith (fun x y => x * y) context synthesisVector).sum /
            (if min context.length synthesisVector.length = 0 then 1
              else ((min context.length synthesisVector.length : ℕ) : ℝ)) ∧
        (applyEtch h context synthesisVector note ts).1.etches =
          h.etches ++ [(applyEtch h context synthesisVector note ts).2]) ∧
      (h.auditLog = true → (∀ p, h.etchHash p ≠ "") →
        (applyEtch h [1, 0.5, -0.5, 0.2] [0.5, 0.5, 0.5, 0.5] note ts).2.deltaWeight =
            0.15 ∧
          (applyEtch h [1, 0.5, -0.5, 0.2] [0.5, 0.5, 0.5, 0.5] note ts).1.etches =
            h.etches ++
              [(applyEtch h [1, 0.5, -0.5, 0.2] [0.5, 0.5, 0.5, 0.5] note ts).2] ∧
          (applyEtch h [1, 0.5, -0.5, 0.2] [0.5, 0.5, 0.5, 0.5] note ts).2.hash ≠ "") := by
  constructor
  · intro hns
    simp only [applyEtch]
    rw [if_neg hns]
    exact ⟨rfl, rfl⟩
  · intro haudit hhash
    have hskip : ¬((List.zipWith (fun x y => x * y) [(1 : ℝ), 0.5, -0.5, 0.2]
        [(0.5 : ℝ), 0.5, 0.5, 0.5]).sum /
        (if min ([(1 : ℝ), 0.5, -0.5, 0.2] : List ℝ).length
            ([(0.5 : ℝ), 0.5, 0.5, 0.5] : List ℝ).length = 0 then 1
          else ((min ([(1 : ℝ), 0.5, -0.5, 0.2] : List ℝ).length
            ([(0.5 : ℝ), 0.5, 0.5, 0.5] : List ℝ).length : ℕ) : ℝ)) <
        h.confidenceFloor ∧ h.auditLog = false) := by
      intro hc
      rw [haudit] at hc
      simp at hc
    refine ⟨?_, ?_, ?_⟩
    · simp only [applyEtch]
      rw [if_neg hskip]
      norm_num [List.zipWith_cons_cons, List.zipWith_nil_right,
        List.sum_cons, List.sum_nil]
    · simp only [applyEtch]
      rw [if_neg hskip]
    · simp only [applyEtch]
      rw [if_neg hskip]
      exact hhash _

/-- Witness for C5: default configuration (audit log on, constant digest),
vectors of equal length 1. -/
theorem applyEtch_delta_witness :
    (¬((List.zipWith (fun x y => x * y) [(1 : ℝ)] [(1 : ℝ)]).sum /
          (if min ([(1 : ℝ)] : List ℝ).length ([(1 : ℝ)] : List ℝ).length = 0 then 1
            else ((min ([(1 : ℝ)] : List ℝ).length ([(1 : ℝ)] : List ℝ).length : ℕ) : ℝ)) <
          (⟨0.8, true, fun _ => "x", []⟩ : HolographicEtch).confidenceFloor ∧
          (⟨0.8, true, fun _ => "x", []⟩ : HolographicEtch).auditLog = false)) ∧
      (applyEtch ⟨0.8, true, fun _ => "x", []⟩ [(1 : ℝ)] [(1 : ℝ)] none "t").2.deltaWeight =
        (List.zipWith (fun x y => x * y) [(1 : ℝ)] [(1 : ℝ)]).sum /
          (if min ([(1 : ℝ)] : List ℝ).length ([(1 : ℝ)] : List ℝ).length = 0 then 1
            else ((min ([(1 : ℝ)] : List ℝ).length ([(1 : ℝ)] : List ℝ).length : ℕ) : ℝ)) ∧
      (applyEtch ⟨0.8, true, fun _ => "x", []⟩ [1, 0.5, -0.5, 0.2]
          [0.5, 0.5, 0.5, 0.5] none "t").2.deltaWeight = 0.15 := by
  have hns : ¬((List.zipWith (fun x y => x * y) [(1 : ℝ)] [(1 : ℝ)]).sum /
      (if min ([(1 : ℝ)] : List ℝ).length ([(1 : ℝ)] : List ℝ).length = 0 then 1
        else ((min ([(1 : ℝ)] : List ℝ).length ([(1 : ℝ)] : List ℝ).length : ℕ) : ℝ)) <
      (⟨0.8, true, fun _ => "x", []⟩ : HolographicEtch).confidenceFloor ∧
      (⟨0.8, true, fun _ => "x", []⟩ : HolographicEtch).auditLog = false) := by
    intro hcon
    simpa using hcon.2
  refine ⟨hns, ?_, ?_⟩
  · exact ((applyEtch_delta ⟨0.8, true, fun _ => "x", []⟩ [(1 : ℝ)] [(1 : ℝ)]
      none "t").1 hns).1
  · exact (((applyEtch_delta ⟨0.8, true, fun _ => "x", []⟩ [(1 : ℝ)] [(1 : ℝ)]
      none "t").2 rfl (fun p => by simp)).1)

/-- Claim C6: when the computed deltaWeight is below confidenceFloor and the
audit log is disabled, applyEtch returns the sentinel record and leaves the
etch list unchanged; since every appended record carries the digest, a
never-empty digest keeps empty-hash sentinels out of every later recent()
result; in every other case a full record is appended. -/
theorem applyEtch_skip (h : HolographicEtch) (context : ContextTensor)
    (synthesisVector : List ℝ) (note : Option String) (ts : String) :
    (((List.zipWith (fun x y => x * y) context synthesisVector).sum /
        (if min context.length synthesisVector.length = 0 then 1
          else ((min context.length synthesisVector.length : ℕ) : ℝ)) <
        h.confidenceFloor ∧ h.auditLog = false) →
      applyEtch h context synthesisVector note ts =
        (h, ⟨"", 0, some "skipped-low-confidence", ts⟩)) ∧
      ((∀ p, h.etchHash p ≠ "") → (∀ r ∈ h.etches, r.hash ≠ "") →
        ∀ (xs : List EtchInput) (limit : ℕ),
          ∀ r ∈ recent (runEtches h xs) limit, r.hash ≠ "") ∧
      (¬((List.zipWith (fun x y => x * y) context synthesisVector).sum /
          (if min context.length synthesisVector.length = 0 then 1
            else ((min context.length synthesisVector.length : ℕ) : ℝ)) <
          h.confidenceFloor ∧ h.auditLog = false) →
        (applyEtch h context synthesisVector note ts).1.etches =
          h.etches ++ [(applyEtch h context synthesisVector note ts).2]) := by
  refine ⟨?_, ?_, ?_⟩
  · intro hc
    simp only [applyEtch]
    rw [if_pos hc]
  · intro hf he xs limit r hr
    exact runEtches_hash_nonempty xs h hf he r
      (recent_subset (runEtches h xs) limit r hr)
  · intro hns
    simp only [applyEtch]
    rw [if_neg hns]

/-- Witness for C6: floor 2 with the audit log off skips the unit vectors
(delta 1 < 2); an empty accumulator with a constant digest never shows an
empty hash in recent(). -/
theorem applyEtch_skip_witness :
    (((List.zipWith (fun x y => x * y) [(1 : ℝ)] [(1 : ℝ)]).sum /
        (if min ([(1 : ℝ)] : List ℝ).length ([(1 : ℝ)] : List ℝ).length = 0 then 1
          else ((min ([(1 : ℝ)] : List ℝ).length ([(1 : ℝ)] : List ℝ).length : ℕ) : ℝ)) <
        (⟨2, false, fun _ => "x", []⟩ : HolographicEtch).confidenceFloor ∧
        (⟨2, false, fun _ => "x", []⟩ : HolographicEtch).auditLog = false) ∧
      applyEtch ⟨2, false, fun _ => "x", []⟩ [(1 : ℝ)] [(1 : ℝ)] none "t" =
        (⟨2, false, fun _ => "x", []⟩,
          ⟨"", 0, some "skipped-low-confidence", "t"⟩)) ∧
      ∀ r ∈ recent (runEtches ⟨2, false, fun _ => "x", []⟩ []) 5, r.hash ≠ "" := by
  have hcond : (List.zipWith (fun x y => x * y) [(1 : ℝ)] [(1 : ℝ)]).sum /
      (if min ([(1 : ℝ)] : List ℝ).length ([(1 : ℝ)] : List ℝ).length = 0 then 1
        else ((min ([(1 : ℝ)] : List ℝ).length ([(1 : ℝ)] : List ℝ).length : ℕ) : ℝ)) <
      (⟨2, false, fun _ => "x", []⟩ : HolographicEtch).confidenceFloor ∧
      (⟨2, false, fun _ => "x", []⟩ : HolographicEtch).auditLog = false := by
    constructor
    · show (List.zipWith (fun x y => x * y) [(1 : ℝ)] [(1 : ℝ)]).sum /
        (if min ([(1 : ℝ)] : List ℝ).length ([(1 : ℝ)] : List ℝ).length = 0 then 1
          else ((min ([(1 : ℝ)] : List ℝ).length ([(1 : ℝ)] : List ℝ).length : ℕ) : ℝ)) <
        (2 : ℝ)
      norm_num [List.zipWith_cons_cons, List.zipWith_nil_right,
        List.sum_cons, List.sum_nil]
    · rfl
  refine ⟨⟨hcond, (applyEtch_skip ⟨2, false, fun _ => "x", []⟩ [(1 : ℝ)] [(1 : ℝ)]
      none "t").1 hcond⟩, ?_⟩
  exact (applyEtch_skip (⟨2, false, fun _ => "x", []⟩ : HolographicEtch)
      [(1 : ℝ)] [(1 : ℝ)] none "t").2.1
    (fun p => by simp) (fun r hr => absurd hr (List.not_mem_nil r)) [] 5

/-! ### estimateEntropy -/

/-- Claim C7, counterexample: the empty tensor returns 0, below a positive
configured entropyFloor, and on [0, 10] the abs-value variance is 25 while
the result is capped at 1 — estimateEntropy is neither always at least the
floor nor equal to the plain floored variance. -/
theorem entropy_floor_counterexample :
    estimateEntropy ⟨8, false, 1/2⟩ [] = 0 ∧
      ¬((1/2 : ℝ) ≤ estimateEntropy ⟨8, false, 1/2⟩ []) ∧
      estimateEntropy ⟨8, false, 0⟩ [(0 : ℝ), 10] = 1 ∧
      (([(0 : ℝ), 10].map fun v =>
          (|v| - ([(0 : ℝ), 10].map fun v => |v|).sum /
            (([(0 : ℝ), 10] : List ℝ).length : ℝ)) ^ 2).sum /
        (([(0 : ℝ), 10] : List ℝ).length : ℝ)) = 25 := by
  have hzero : estimateEntropy ⟨8, false, 1/2⟩ [] = 0 := rfl
  have hvar : (([(0 : ℝ), 10].map fun v =>
      (|v| - ([(0 : ℝ), 10].map fun v => |v|).sum /
        (([(0 : ℝ), 10] : List ℝ).length : ℝ)) ^ 2).sum /
      (([(0 : ℝ), 10] : List ℝ).length : ℝ)) = 25 := by
    norm_num [List.sum_cons, List.sum_nil, abs_of_nonneg]
  refine ⟨hzero, by rw [hzero]; norm_num, ?_, hvar⟩
  simp only [estimateEntropy]
  rw [if_neg (by norm_num), hvar]
  norm_num

/-- Claim C7 (amended): for every nonempty tensor, estimateEntropy equals
the variance of the absolute component values capped at 1 and floored at
entropyFloor, hence is at least entropyFloor; the empty tensor yields 0
regardless of the configured floor. -/
theorem entropy_floor (e : NovaNeoEncoder) (t : ContextTensor) (ht : t ≠ []) :
    e.entropyFloor ≤ estimateEntropy e t ∧
      estimateEntropy e t =
        max (min 1 ((t.map fun v =>
          (|v| - (t.map fun v => |v|).sum / (t.length : ℝ)) ^ 2).sum /
            (t.length : ℝ))) e.entropyFloor ∧
      estimateEntropy e [] = 0 := by
  have hlen : t.length ≠ 0 := fun hc => ht (List.length_eq_zero.mp hc)
  refine ⟨?_, ?_, rfl⟩
  · simp only [estimateEntropy]
    rw [if_neg hlen]
    exact le_max_right _ _
  · simp only [estimateEntropy]
    rw [if_neg hlen]

/-- Witness for C7 on the nonempty tensor [1] with floor 0. -/
theorem entropy_floor_witness :
    ([(1 : ℝ)] ≠ ([] : List ℝ)) ∧
      (⟨8, false, 0⟩ : NovaNeoEncoder).entropyFloor ≤
        estimateEntropy ⟨8, false, 0⟩ [(1 : ℝ)] := by
  have h : [(1 : ℝ)] ≠ ([] : List ℝ) := by simp
  exact ⟨h, (entropy_floor ⟨8, false, 0⟩ [(1 : ℝ)] h).1⟩

end

end MCOP
